import Mathlib

/-!
Verification of the A* grid planner (`astar.py` + `map_visual.py`).

Shallow embedding conventions:
* Grid coordinates are pairs of integers (`ℤ × ℤ`), as Python tuples of ints.
* Python floats are idealised as exact values: the accumulated cost `g` is a
  rational (all move costs are the literals `1.0` and `1.414 = 707/500`), and a
  heuristic/`f` value is represented by the pair `Sval q n`, denoting the real
  number `q + √n` (the heuristic is `sqrt(dx² + dy²)` with `dx, dy` integers,
  so every `h`/`f` value produced by the program has this shape).
* `heapq` is modelled as a list of nodes from which `popMin` removes a node
  with minimal `f` (Python's heap pops a minimal element w.r.t. `Node.__lt__`,
  which compares `f` only; the tie order among equal `f` is an implementation
  accident of the heap layout and is left to "first minimal element" here).
  The auxiliary dict `open_dict` mirrors exactly the positions of the heap
  members (the code inserts/deletes both in lockstep, and the decrease-key
  update mutates the node object shared by both), so both are embedded as the
  single list; a dict lookup is `List.find?` by position and the recorded
  frontier snapshot `set(open_dict.keys())` is the list of member positions.
* Wall-clock fields (`time.time()`, `runtime`) are not modelled.
* The main loop is driven by explicit fuel `width * height`; `plan` returns
  `none` iff the fuel runs out, which `plan_terminates` below proves
  impossible, matching the termination argument of the loop.
-/

attribute [local semireducible] Rat.add Rat.mul Rat.sub Rat.inv

/-- A value of the form `q + √n`: the exact form of every `h` and `f` value
computed by `astar.py` (rational accumulated cost plus a square root of a
natural number). -/
structure Sval where
  q : ℚ
  n : ℕ
deriving DecidableEq

/-- Real number denoted by an `Sval`. -/
noncomputable def Sval.toReal (a : Sval) : ℝ :=
  (a.q : ℝ) + Real.sqrt (a.n : ℝ)

/-- Add a rational to an `Sval` (used for `f = g + h`). -/
def Sval.addQ (c : ℚ) (a : Sval) : Sval :=
  ⟨c + a.q, a.n⟩

/-- Decides `a.q + √a.n ≤ b.q + √b.n` by the usual quadratic-surd case
analysis (squaring twice); this is the exact comparison of the two real
values that the Python floats approximate. -/
def Sval.ble (a b : Sval) : Bool :=
  let d : ℚ := b.q - a.q
  if 0 ≤ d then
    let L : ℚ := (a.n : ℚ) - (b.n : ℚ) - d * d
    decide (L ≤ 0) || decide (L * L ≤ 4 * (d * d) * (b.n : ℚ))
  else
    let M : ℚ := (b.n : ℚ) - (a.n : ℚ) - d * d
    decide (0 ≤ M) && decide (4 * (d * d) * (a.n : ℚ) ≤ M * M)

/-- Strict comparison of `Sval` values (`Node.__lt__` compares `f` values). -/
def Sval.blt (a b : Sval) : Bool :=
  !(Sval.ble b a)

/-- `VisualMap` (map_visual.py): a `width × height` grid; `blocked` is the
set of cells whose grid entry is 1 (obstacles), as a list. -/
structure VisualMap where
  width : ℕ
  height : ℕ
  blocked : List (ℤ × ℤ)

/-- `VisualMap.is_free`: inside the bounds and not an obstacle; out of
bounds counts as not traversable. -/
def VisualMap.is_free (m : VisualMap) (x y : ℤ) : Bool :=
  if 0 ≤ x ∧ x < (m.width : ℤ) ∧ 0 ≤ y ∧ y < (m.height : ℤ) then
    decide ((x, y) ∉ m.blocked)
  else
    false

/-- The direction list of `VisualMap.get_neighbors`: four orthogonal moves,
plus the four diagonal ones when diagonal movement is allowed. -/
def directions (allow_diagonal : Bool) : List (ℤ × ℤ) :=
  [(0, 1), (1, 0), (0, -1), (-1, 0)]
    ++ (if allow_diagonal then [(1, 1), (1, -1), (-1, 1), (-1, -1)] else [])

/-- `VisualMap.get_neighbors`: the traversable cells one step away, in the
fixed direction order. -/
def VisualMap.get_neighbors (m : VisualMap) (x y : ℤ) (allow_diagonal : Bool) :
    List (ℤ × ℤ) :=
  ((directions allow_diagonal).map (fun d => (x + d.1, y + d.2))).filter
    (fun p => m.is_free p.1 p.2)

/-- Search node (`Node` in astar.py): position, parent back-pointer
(`Optional[Node]`), and the cost fields `g`, `h`, `f`. -/
inductive Node : Type where
  | mk : (pos : ℤ × ℤ) → (parent : Option Node) → (g : ℚ) → (h : Sval) →
      (f : Sval) → Node

def Node.pos : Node → ℤ × ℤ
  | .mk p _ _ _ _ => p

def Node.parent : Node → Option Node
  | .mk _ pr _ _ _ => pr

def Node.g : Node → ℚ
  | .mk _ _ g _ _ => g

def Node.h : Node → Sval
  | .mk _ _ _ h _ => h

def Node.f : Node → Sval
  | .mk _ _ _ _ f => f

/-- `Node.__init__`: a fresh node stores its position and parent and
initialises all three cost fields to `0`. -/
def mkNode (pos : ℤ × ℤ) (parent : Option Node) : Node :=
  .mk pos parent 0 ⟨0, 0⟩ ⟨0, 0⟩

/-- `AStar.heuristic`: Euclidean distance `((ax-bx)² + (ay-by)²) ** 0.5`,
represented exactly as `√(dx² + dy²)`, i.e. `Sval 0 (dx² + dy²)`. -/
def heuristic (a b : ℤ × ℤ) : Sval :=
  ⟨0, ((a.1 - b.1) * (a.1 - b.1) + (a.2 - b.2) * (a.2 - b.2)).toNat⟩

/-- Move cost of one step (astar.py lines 130-134): `1.0` by default, and the
literal `1.414` (= `707/500`) when diagonal movement is allowed and both
coordinate deltas have absolute value 1. -/
def move_cost (allow_diagonal : Bool) (cpos npos : ℤ × ℤ) : ℚ :=
  if allow_diagonal = true ∧ (npos.1 - cpos.1).natAbs = 1
      ∧ (npos.2 - cpos.2).natAbs = 1 then
    707 / 500
  else
    1

/-- Creation of a frontier node for a newly discovered neighbor
(astar.py lines 149-153): `Node(neighbor_pos, current_node)` followed by the
assignments of `g`, `h` and `f = g + h`. -/
def newNode (cur : Node) (goal : ℤ × ℤ) (ng : ℚ) (npos : ℤ × ℤ) : Node :=
  .mk npos (some cur) ng (heuristic npos goal) (Sval.addQ ng (heuristic npos goal))

/-- The in-place decrease-key update of a frontier node (astar.py lines
142-146): new `g`, recomputed `h`, `f = g + h`, parent repointed to the
current node; the position is unchanged. -/
def updateNode (cur : Node) (goal : ℤ × ℤ) (ng : ℚ) (nd : Node) : Node :=
  .mk nd.pos (some cur) ng (heuristic nd.pos goal)
    (Sval.addQ ng (heuristic nd.pos goal))

/-- Processing of one neighbor position inside the main loop (astar.py lines
126-155): skip if closed; otherwise compute the tentative `g`; decrease-key
if the position already has a frontier node with larger `g`; otherwise push a
fresh node. -/
def relaxNeighbor (allow_diagonal : Bool) (goal : ℤ × ℤ)
    (cur : Node) (closed : List (ℤ × ℤ)) (frontier : List Node)
    (npos : ℤ × ℤ) : List Node :=
  if npos ∈ closed then
    frontier
  else
    let ng := cur.g + move_cost allow_diagonal cur.pos npos
    match frontier.find? (fun nd => decide (nd.pos = npos)) with
    | some nd =>
      if ng < nd.g then
        frontier.map (fun x => if x.pos = npos then updateNode cur goal ng x else x)
      else
        frontier
    | none => frontier ++ [newNode cur goal ng npos]

/-- The neighbor loop of one iteration: fold `relaxNeighbor` over
`get_neighbors` of the current node's position. -/
def step_neighbors (m : VisualMap) (allow_diagonal : Bool) (goal : ℤ × ℤ)
    (cur : Node) (closed : List (ℤ × ℤ)) (frontier : List Node) : List Node :=
  (m.get_neighbors cur.pos.1 cur.pos.2 allow_diagonal).foldl
    (relaxNeighbor allow_diagonal goal cur closed) frontier

/-- `heapq.heappop`: remove a node with minimal `f` (the first minimal one;
ties among equal `f` values are an unspecified heap-layout accident in the
source). Returns the node and the remaining frontier. -/
def popMin : List Node → Option (Node × List Node)
  | [] => none
  | nd :: nds =>
    match popMin nds with
    | none => some (nd, nds)
    | some (mn, rest) =>
      if Sval.blt mn.f nd.f then some (mn, nd :: rest) else some (nd, nds)

/-- Path reconstruction (astar.py lines 115-120): follow parent pointers,
collecting positions from the current node back to the root. -/
def backtrack : Node → List (ℤ × ℤ)
  | .mk pos none _ _ _ => [pos]
  | .mk pos (some p) _ _ _ => pos :: backtrack p

/-- The main A* loop (astar.py lines 105-158), with explicit fuel.  Each
iteration pops a minimal-`f` node, closes it, appends it to `explored`,
returns on goal, otherwise relaxes its neighbors and appends the frontier
snapshot.  Returns `none` only when the fuel runs out (never reached from
`plan`, see `planLoop_sound`). -/
def planLoop (m : VisualMap) (allow_diagonal : Bool) (goal : ℤ × ℤ) :
    ℕ → List Node → List (ℤ × ℤ) → List (ℤ × ℤ) → List (List (ℤ × ℤ)) →
      Option (Option (List (ℤ × ℤ)) × List (ℤ × ℤ) × List (List (ℤ × ℤ)))
  | fuel, frontier, closed, explored, history =>
    match popMin frontier with
    | none => some (none, explored, history)
    | some (cur, rest) =>
      match fuel with
      | 0 => none
      | fuel' + 1 =>
        let closed' := closed ++ [cur.pos]
        let explored' := explored ++ [cur.pos]
        if cur.pos = goal then
          some (some (backtrack cur).reverse, explored', history)
        else
          let frontier' := step_neighbors m allow_diagonal goal cur closed' rest
          planLoop m allow_diagonal goal fuel' frontier' closed' explored'
            (history ++ [frontier'.map Node.pos])

/-- The obstacle snapshot stored in the result dict:
`[(x, y) for y in range(height) for x in range(width) if not is_free(x, y)]`. -/
def obstaclesList (m : VisualMap) : List (ℤ × ℤ) :=
  (List.range m.height).flatMap (fun y =>
    (List.range m.width).filterMap (fun x =>
      if m.is_free (Int.ofNat x) (Int.ofNat y) then none
      else some (Int.ofNat x, Int.ofNat y)))

/-- All traversable cells of the grid (used only for the termination bound). -/
def freeCells (m : VisualMap) : List (ℤ × ℤ) :=
  ((List.range m.height).flatMap (fun y =>
    (List.range m.width).map (fun x => (Int.ofNat x, Int.ofNat y)))).filter
    (fun p => m.is_free p.1 p.2)

/-- The result dict of `AStar.plan` (the wall-clock `runtime` field is not
modelled; `open_set_history` entries are position sets, kept here as lists of
the dict keys). -/
structure PlanResult where
  path : Option (List (ℤ × ℤ))
  explored : List (ℤ × ℤ)
  open_set_history : List (List (ℤ × ℤ))
  start : ℤ × ℤ
  goal : ℤ × ℤ
  obstacles : List (ℤ × ℤ)
  width : ℕ
  height : ℕ

/-- `AStar.plan`: build the result dict; return it unchanged if start or goal
is not traversable; otherwise push the start node (constructed by
`Node.__init__` with all cost fields 0), record the initial frontier
snapshot, and run the main loop.  The `allow_diagonal` flag plays the role of
the `AStar` instance attribute. -/
def plan (m : VisualMap) (allow_diagonal : Bool) (start goal : ℤ × ℤ) :
    Option PlanResult :=
  let base : PlanResult :=
    { path := none
      explored := []
      open_set_history := []
      start := start
      goal := goal
      obstacles := obstaclesList m
      width := m.width
      height := m.height }
  if !(m.is_free start.1 start.2) || !(m.is_free goal.1 goal.2) then
    some base
  else
    let start_node := mkNode start none
    match planLoop m allow_diagonal goal (m.width * m.height) [start_node] [] []
        [[start_node.pos]] with
    | none => none
    | some (p, explored, history) =>
      some ({ base with
                path := p
                explored := explored
                open_set_history := history })

/-- One neighbor step of the grid: `b` is among the neighbors the grid
reports for `a` (with the given diagonal flag). -/
def adjStep (m : VisualMap) (allow_diagonal : Bool) (a b : ℤ × ℤ) : Prop :=
  b ∈ m.get_neighbors a.1 a.2 allow_diagonal

/-- Reachability through the grid's own neighbor relation. -/
def Reach (m : VisualMap) (allow_diagonal : Bool) (s t : ℤ × ℤ) : Prop :=
  Relation.ReflTransGen (adjStep m allow_diagonal) s t

/-- Well-formedness of a node's parent chain: the chain ends in a parentless
node at `start`, and each link is a grid neighbor step. -/
def chainOK (m : VisualMap) (allow_diagonal : Bool) (start : ℤ × ℤ) :
    Node → Prop
  | .mk pos none _ _ _ => pos = start
  | .mk pos (some p) _ _ _ =>
      adjStep m allow_diagonal p.pos pos ∧ chainOK m allow_diagonal start p

/-- Sanity check, spec §8 "Concrete scenario": 3×3 grid without obstacles,
diagonal enabled: the returned path is the 3-cell diagonal. -/
theorem plan_scenario_diag :
    (plan (VisualMap.mk 3 3 []) true (0, 0) (2, 2)).map (fun r => r.path)
      = some (some [(0, 0), (1, 1), (2, 2)]) := by decide

/-- Sanity check, spec §8 "Concrete scenario": 3×3 grid without obstacles,
diagonal disabled: the returned path has 5 cells (cost 4). -/
theorem plan_scenario_orth :
    (plan (VisualMap.mk 3 3 []) false (0, 0) (2, 2)).map
        (fun r => r.path.map List.length) = some (some 5) := by decide

/-- Sanity check, spec §8: obstacles at (1,0) and (0,1) isolate (0,0) without
diagonal moves; with them the diagonal path remains. -/
theorem plan_scenario_blocked :
    ((plan (VisualMap.mk 3 3 [(1, 0), (0, 1)]) false (0, 0) (2, 2)).map
        (fun r => (r.path, r.explored)) = some (none, [(0, 0)]))
    ∧ ((plan (VisualMap.mk 3 3 [(1, 0), (0, 1)]) true (0, 0) (2, 2)).map
        (fun r => r.path) = some (some [(0, 0), (1, 1), (2, 2)])) := by
  constructor <;> decide

/-! ### Basic lemmas about the embedded operations -/

lemma popMin_none_iff {l : List Node} : popMin l = none ↔ l = [] := by
  cases l with
  | nil => simp [popMin]
  | cons nd nds =>
    simp only [popMin]
    constructor
    · intro h
      cases hm : popMin nds with
      | none => rw [hm] at h; cases h
      | some pr =>
        obtain ⟨mn, rest⟩ := pr
        rw [hm] at h
        by_cases hb : Sval.blt mn.f nd.f <;> simp [hb] at h
    · intro h; cases h

lemma popMin_perm : ∀ {l : List Node} {c : Node} {r : List Node},
    popMin l = some (c, r) → l.Perm (c :: r)
  | [], c, r, h => by cases h
  | nd :: nds, c, r, h => by
    simp only [popMin] at h
    cases hm : popMin nds with
    | none =>
      rw [hm] at h
      dsimp only at h
      obtain ⟨rfl, rfl⟩ := Prod.mk.injEq .. ▸ Option.some.inj h
      exact List.Perm.refl _
    | some pr =>
      obtain ⟨mn, rest⟩ := pr
      rw [hm] at h
      dsimp only at h
      by_cases hb : Sval.blt mn.f nd.f
      · rw [if_pos hb] at h
        obtain ⟨rfl, rfl⟩ := Prod.mk.injEq .. ▸ Option.some.inj h
        exact ((popMin_perm hm).cons nd).trans (List.Perm.swap _ nd rest)
      · rw [if_neg hb] at h
        obtain ⟨rfl, rfl⟩ := Prod.mk.injEq .. ▸ Option.some.inj h
        exact List.Perm.refl _

lemma is_free_of_mem_neighbors {m : VisualMap} {x y : ℤ} {ad : Bool}
    {q : ℤ × ℤ} (h : q ∈ m.get_neighbors x y ad) : m.is_free q.1 q.2 = true :=
  (List.mem_filter.mp h).2

lemma mem_freeCells {m : VisualMap} {p : ℤ × ℤ}
    (h : m.is_free p.1 p.2 = true) : p ∈ freeCells m := by
  obtain ⟨px, py⟩ := p
  have hb : 0 ≤ px ∧ px < (m.width : ℤ) ∧ 0 ≤ py ∧ py < (m.height : ℤ) := by
    by_contra hcon
    unfold VisualMap.is_free at h
    rw [if_neg hcon] at h
    cases h
  obtain ⟨h1, h2, h3, h4⟩ := hb
  unfold freeCells
  rw [List.mem_filter]
  refine ⟨?_, h⟩
  rw [List.mem_flatMap]
  refine ⟨py.toNat, ?_, ?_⟩
  · exact List.mem_range.mpr (by omega)
  · rw [List.mem_map]
    refine ⟨px.toNat, ?_, ?_⟩
    · exact List.mem_range.mpr (by omega)
    · simp only [Prod.mk.injEq, Int.ofNat_eq_natCast]
      omega

lemma freeCells_length_le (m : VisualMap) :
    (freeCells m).length ≤ m.width * m.height := by
  unfold freeCells
  refine le_trans (List.length_filter_le _ _) ?_
  rw [List.flatMap_def, List.length_flatten, List.map_map]
  have hmap : (List.range m.height).map
      (List.length ∘ fun y : ℕ =>
        (List.range m.width).map (fun x : ℕ => (Int.ofNat x, Int.ofNat y)))
      = List.replicate m.height m.width := by
    refine List.eq_replicate_iff.mpr ⟨by simp, ?_⟩
    intro b hb
    rw [List.mem_map] at hb
    obtain ⟨y, _, rfl⟩ := hb
    simp
  rw [hmap, List.sum_replicate, smul_eq_mul, Nat.mul_comm]

lemma chainOK_reach {m : VisualMap} {ad : Bool} {s : ℤ × ℤ} :
    ∀ (nd : Node), chainOK m ad s nd → Reach m ad s nd.pos
  | .mk pos none g h f, hc => by
    simp only [chainOK] at hc
    subst hc
    exact Relation.ReflTransGen.refl
  | .mk pos (some p) g h f, hc => by
    simp only [chainOK] at hc
    exact Relation.ReflTransGen.tail (chainOK_reach p hc.2) hc.1

lemma backtrack_ne_nil : ∀ (nd : Node), backtrack nd ≠ []
  | .mk _ none _ _ _ => by simp [backtrack]
  | .mk _ (some _) _ _ _ => by simp [backtrack]

lemma backtrack_head : ∀ (nd : Node), (backtrack nd).head? = some nd.pos
  | .mk _ none _ _ _ => rfl
  | .mk _ (some _) _ _ _ => rfl

lemma backtrack_getLast {m : VisualMap} {ad : Bool} {s : ℤ × ℤ} :
    ∀ (nd : Node), chainOK m ad s nd → (backtrack nd).getLast? = some s
  | .mk pos none g h f, hc => by
    simp only [chainOK] at hc
    simp [backtrack, hc]
  | .mk pos (some p) g h f, hc => by
    simp only [chainOK] at hc
    have ih := backtrack_getLast p hc.2
    cases hp : backtrack p with
    | nil => exact absurd hp (backtrack_ne_nil p)
    | cons b l =>
      rw [hp] at ih
      simp only [backtrack, hp, List.getLast?_cons_cons]
      exact ih

lemma backtrack_chain {m : VisualMap} {ad : Bool} {s : ℤ × ℤ} :
    ∀ (nd : Node), chainOK m ad s nd →
      List.Chain' (fun a b => adjStep m ad b a) (backtrack nd)
  | .mk pos none _ _ _, _ => by simp [backtrack]
  | .mk pos (some p) g h f, hc => by
    simp only [chainOK] at hc
    have ih := backtrack_chain p hc.2
    show List.Chain' _ (pos :: backtrack p)
    rw [List.chain'_cons']
    refine ⟨?_, ih⟩
    intro b hb
    rw [backtrack_head p] at hb
    cases hb
    exact hc.1

/-! ### Lemmas about one neighbor relaxation and the neighbor fold -/

lemma updateNode_pos (cur : Node) (goal : ℤ × ℤ) (ng : ℚ) (nd : Node) :
    (updateNode cur goal ng nd).pos = nd.pos := rfl

lemma newNode_pos (cur : Node) (goal : ℤ × ℤ) (ng : ℚ) (npos : ℤ × ℤ) :
    (newNode cur goal ng npos).pos = npos := rfl

lemma relaxNeighbor_pos (ad : Bool) (goal : ℤ × ℤ) (cur : Node)
    (closed : List (ℤ × ℤ)) (fr : List Node) (npos : ℤ × ℤ) :
    ((relaxNeighbor ad goal cur closed fr npos).map Node.pos = fr.map Node.pos
      ∧ (npos ∈ closed ∨ npos ∈ fr.map Node.pos))
    ∨ ((relaxNeighbor ad goal cur closed fr npos).map Node.pos
          = fr.map Node.pos ++ [npos]
        ∧ npos ∉ fr.map Node.pos ∧ npos ∉ closed) := by
  unfold relaxNeighbor
  by_cases hc : npos ∈ closed
  · rw [if_pos hc]
    exact Or.inl ⟨rfl, Or.inl hc⟩
  · rw [if_neg hc]
    cases hf : fr.find? (fun nd => decide (nd.pos = npos)) with
    | some nd0 =>
      have hpos : nd0.pos = npos := by simpa using List.find?_some hf
      have hmem : npos ∈ fr.map Node.pos :=
        List.mem_map.mpr ⟨nd0, List.mem_of_find?_eq_some hf, hpos⟩
      dsimp only
      by_cases hg : cur.g + move_cost ad cur.pos npos < nd0.g
      · rw [if_pos hg]
        left
        refine ⟨?_, Or.inr hmem⟩
        rw [List.map_map]
        apply List.map_congr_left
        intro x _
        by_cases hx : x.pos = npos
        · simp only [Function.comp_apply]
          rw [if_pos hx, updateNode_pos]
        · simp only [Function.comp_apply]
          rw [if_neg hx]
      · rw [if_neg hg]
        exact Or.inl ⟨rfl, Or.inr hmem⟩
    | none =>
      dsimp only
      right
      refine ⟨by rw [List.map_append]; rfl, ?_, hc⟩
      intro hmem
      rw [List.mem_map] at hmem
      obtain ⟨x, hx, hxpos⟩ := hmem
      exact List.find?_eq_none.mp hf x hx (decide_eq_true hxpos)

lemma relaxNeighbor_mem (ad : Bool) (goal : ℤ × ℤ) (cur : Node)
    (closed : List (ℤ × ℤ)) (fr : List Node) (npos : ℤ × ℤ) :
    ∀ nd' ∈ relaxNeighbor ad goal cur closed fr npos,
      nd' ∈ fr
      ∨ (∃ x ∈ fr, x.pos = npos
          ∧ nd' = updateNode cur goal (cur.g + move_cost ad cur.pos npos) x)
      ∨ nd' = newNode cur goal (cur.g + move_cost ad cur.pos npos) npos := by
  intro nd' hnd'
  unfold relaxNeighbor at hnd'
  by_cases hc : npos ∈ closed
  · rw [if_pos hc] at hnd'
    exact Or.inl hnd'
  · rw [if_neg hc] at hnd'
    cases hf : fr.find? (fun nd => decide (nd.pos = npos)) with
    | some nd0 =>
      rw [hf] at hnd'
      dsimp only at hnd'
      by_cases hg : cur.g + move_cost ad cur.pos npos < nd0.g
      · rw [if_pos hg] at hnd'
        rw [List.mem_map] at hnd'
        obtain ⟨x, hx, rfl⟩ := hnd'
        by_cases hxp : x.pos = npos
        · rw [if_pos hxp]
          exact Or.inr (Or.inl ⟨x, hx, hxp, rfl⟩)
        · rw [if_neg hxp]
          exact Or.inl hx
      · rw [if_neg hg] at hnd'
        exact Or.inl hnd'
    | none =>
      rw [hf] at hnd'
      dsimp only at hnd'
      rcases List.mem_append.mp hnd' with h | h
      · exact Or.inl h
      · rcases List.mem_singleton.mp h with rfl
        exact Or.inr (Or.inr rfl)

lemma foldl_relax_pos_subset (ad : Bool) (goal : ℤ × ℤ) (cur : Node)
    (closed : List (ℤ × ℤ)) :
    ∀ (ns : List (ℤ × ℤ)) (fr : List Node) (p : ℤ × ℤ),
      p ∈ fr.map Node.pos →
      p ∈ (ns.foldl (relaxNeighbor ad goal cur closed) fr).map Node.pos := by
  intro ns
  induction ns with
  | nil => intro fr p hp; exact hp
  | cons q ns ih =>
    intro fr p hp
    rw [List.foldl_cons]
    apply ih
    rcases relaxNeighbor_pos ad goal cur closed fr q with ⟨h, _⟩ | ⟨h, _, _⟩
    · rw [h]; exact hp
    · rw [h]; exact List.mem_append_left _ hp

lemma foldl_relax_covers (ad : Bool) (goal : ℤ × ℤ) (cur : Node)
    (closed : List (ℤ × ℤ)) :
    ∀ (ns : List (ℤ × ℤ)) (fr : List Node) (q : ℤ × ℤ), q ∈ ns →
      q ∈ closed
      ∨ q ∈ (ns.foldl (relaxNeighbor ad goal cur closed) fr).map Node.pos := by
  intro ns
  induction ns with
  | nil => intro fr q hq; cases hq
  | cons q0 ns ih =>
    intro fr q hq
    rw [List.foldl_cons]
    rcases List.mem_cons.mp hq with rfl | hq'
    · by_cases hc : q ∈ closed
      · exact Or.inl hc
      · right
        apply foldl_relax_pos_subset
        rcases relaxNeighbor_pos ad goal cur closed fr q with ⟨h, hin⟩ | ⟨h, _, _⟩
        · rcases hin with hin | hin
          · exact absurd hin hc
          · rw [h]; exact hin
        · rw [h]; exact List.mem_append_right _ (List.mem_singleton.mpr rfl)
    · exact ih _ q hq'

lemma foldl_relax_good {m : VisualMap} {ad : Bool} {s : ℤ × ℤ}
    (goal : ℤ × ℤ) {cur : Node} (hcur : chainOK m ad s cur)
    (closed : List (ℤ × ℤ)) :
    ∀ (ns : List (ℤ × ℤ)), (∀ q ∈ ns, adjStep m ad cur.pos q) →
    ∀ (fr : List Node),
      (∀ nd ∈ fr, m.is_free nd.pos.1 nd.pos.2 = true ∧ chainOK m ad s nd) →
    ∀ nd' ∈ ns.foldl (relaxNeighbor ad goal cur closed) fr,
      m.is_free nd'.pos.1 nd'.pos.2 = true ∧ chainOK m ad s nd' := by
  intro ns
  induction ns with
  | nil => intro _ fr hfr nd' hmem; exact hfr nd' hmem
  | cons q ns ih =>
    intro hns fr hfr
    rw [List.foldl_cons]
    apply ih (fun r hr => hns r (List.mem_cons_of_mem _ hr))
    intro nd' hnd'
    have hadj : adjStep m ad cur.pos q := hns q (List.mem_cons_self _ _)
    have hfree : m.is_free q.1 q.2 = true := is_free_of_mem_neighbors hadj
    rcases relaxNeighbor_mem ad goal cur closed fr q nd' hnd' with
      h | ⟨x, hx, hxp, rfl⟩ | rfl
    · exact hfr nd' h
    · constructor
      · rw [updateNode_pos, hxp]; exact hfree
      · show chainOK m ad s (Node.mk x.pos (some cur) _ _ _)
        simp only [chainOK]
        exact ⟨hxp ▸ hadj, hcur⟩
    · constructor
      · rw [newNode_pos]; exact hfree
      · show chainOK m ad s (Node.mk q (some cur) _ _ _)
        simp only [chainOK]
        exact ⟨hadj, hcur⟩

lemma foldl_relax_nodup (ad : Bool) (goal : ℤ × ℤ) (cur : Node)
    (closed : List (ℤ × ℤ)) :
    ∀ (ns : List (ℤ × ℤ)) (fr : List Node),
      (fr.map Node.pos).Nodup → (∀ p ∈ fr.map Node.pos, p ∉ closed) →
      ((ns.foldl (relaxNeighbor ad goal cur closed) fr).map Node.pos).Nodup
      ∧ (∀ p ∈ (ns.foldl (relaxNeighbor ad goal cur closed) fr).map Node.pos,
          p ∉ closed) := by
  intro ns
  induction ns with
  | nil => intro fr h1 h2; exact ⟨h1, h2⟩
  | cons q ns ih =>
    intro fr h1 h2
    rw [List.foldl_cons]
    rcases relaxNeighbor_pos ad goal cur closed fr q with ⟨h, _⟩ | ⟨h, hnm, hnc⟩
    · exact ih _ (by rw [h]; exact h1) (by rw [h]; exact h2)
    · apply ih
      · rw [h]
        rw [List.nodup_append]
        refine ⟨h1, List.nodup_singleton q, ?_⟩
        intro a ha hq
        rw [List.mem_singleton] at hq
        subst hq
        exact hnm ha
      · rw [h]
        intro p hp
        rcases List.mem_append.mp hp with hp | hp
        · exact h2 p hp
        · rw [List.mem_singleton] at hp
          subst hp
          exact hnc

/-! ### The loop invariant and the master lemma about the main loop -/

lemma step_neighbors_def (m : VisualMap) (ad : Bool) (goal : ℤ × ℤ)
    (cur : Node) (closed : List (ℤ × ℤ)) (fr : List Node) :
    step_neighbors m ad goal cur closed fr
      = (m.get_neighbors cur.pos.1 cur.pos.2 ad).foldl
          (relaxNeighbor ad goal cur closed) fr := rfl

/-- Invariant carried by the main loop: the closed list is duplicate-free and
disjoint from the frontier positions, every closed or frontier position is
traversable and reachable from the start via grid neighbor steps, every
frontier node has a well-formed parent chain, and every neighbor of a closed
position is closed or on the frontier. -/
structure LoopInv (m : VisualMap) (ad : Bool) (start : ℤ × ℤ)
    (fr : List Node) (closed : List (ℤ × ℤ)) : Prop where
  nodupC : closed.Nodup
  nodupF : (fr.map Node.pos).Nodup
  disj : ∀ p ∈ fr.map Node.pos, p ∉ closed
  freeC : ∀ p ∈ closed, m.is_free p.1 p.2 = true
  good : ∀ nd ∈ fr, m.is_free nd.pos.1 nd.pos.2 = true ∧ chainOK m ad start nd
  reachC : ∀ p ∈ closed, Reach m ad start p
  closure : ∀ p ∈ closed, ∀ q, adjStep m ad p q →
    q ∈ closed ∨ q ∈ fr.map Node.pos

lemma inv_step {m : VisualMap} {ad : Bool} {start : ℤ × ℤ} (goal : ℤ × ℤ)
    {fr : List Node} {closed : List (ℤ × ℤ)} {cur : Node} {rest : List Node}
    (inv : LoopInv m ad start fr closed)
    (hpop : popMin fr = some (cur, rest)) :
    LoopInv m ad start (step_neighbors m ad goal cur (closed ++ [cur.pos]) rest)
      (closed ++ [cur.pos]) := by
  have hperm := popMin_perm hpop
  have hpermpos : (fr.map Node.pos).Perm (cur.pos :: rest.map Node.pos) := by
    simpa using hperm.map Node.pos
  have hcurmem : cur ∈ fr := hperm.symm.subset (List.mem_cons_self _ _)
  obtain ⟨hcfree, hcchain⟩ := inv.good cur hcurmem
  have hnodup' : (cur.pos :: rest.map Node.pos).Nodup :=
    (hpermpos.nodup_iff).mp inv.nodupF
  obtain ⟨hcpr, hrestnodup⟩ := List.nodup_cons.mp hnodup'
  have hrestdisj : ∀ p ∈ rest.map Node.pos, p ∉ closed := fun p hp =>
    inv.disj p (hpermpos.symm.subset (List.mem_cons_of_mem _ hp))
  have hcurnc : cur.pos ∉ closed :=
    inv.disj cur.pos (hpermpos.symm.subset (List.mem_cons_self _ _))
  have hdisj' : ∀ p ∈ rest.map Node.pos, p ∉ closed ++ [cur.pos] := by
    intro p hp hmem
    rcases List.mem_append.mp hmem with h | h
    · exact hrestdisj p hp h
    · rw [List.mem_singleton] at h
      exact hcpr (h ▸ hp)
  have hns : ∀ q ∈ m.get_neighbors cur.pos.1 cur.pos.2 ad,
      adjStep m ad cur.pos q := fun q hq => hq
  have hrestgood : ∀ nd ∈ rest,
      m.is_free nd.pos.1 nd.pos.2 = true ∧ chainOK m ad start nd := fun nd h =>
    inv.good nd (hperm.symm.subset (List.mem_cons_of_mem _ h))
  have hfold := foldl_relax_nodup ad goal cur (closed ++ [cur.pos])
    (m.get_neighbors cur.pos.1 cur.pos.2 ad) rest hrestnodup hdisj'
  refine ⟨?_, ?_, ?_, ?_, ?_, ?_, ?_⟩
  · rw [List.nodup_append]
    refine ⟨inv.nodupC, List.nodup_singleton _, ?_⟩
    intro a ha hb
    rw [List.mem_singleton] at hb
    exact hcurnc (hb ▸ ha)
  · rw [step_neighbors_def]
    exact hfold.1
  · rw [step_neighbors_def]
    exact hfold.2
  · intro p hp
    rcases List.mem_append.mp hp with h | h
    · exact inv.freeC p h
    · rw [List.mem_singleton] at h
      exact h ▸ hcfree
  · rw [step_neighbors_def]
    exact foldl_relax_good goal hcchain (closed ++ [cur.pos]) _ hns rest hrestgood
  · intro p hp
    rcases List.mem_append.mp hp with h | h
    · exact inv.reachC p h
    · rw [List.mem_singleton] at h
      exact h ▸ chainOK_reach cur hcchain
  · intro p hp q hadj
    rcases List.mem_append.mp hp with h | h
    · rcases inv.closure p h q hadj with hq | hq
      · exact Or.inl (List.mem_append_left _ hq)
      · rcases List.mem_cons.mp (hpermpos.subset hq) with rfl | hq'
        · exact Or.inl (List.mem_append_right _ (List.mem_singleton.mpr rfl))
        · rw [step_neighbors_def]
          exact Or.inr (foldl_relax_pos_subset ad goal cur _ _ rest q hq')
    · rw [List.mem_singleton] at h
      subst h
      rw [step_neighbors_def]
      exact foldl_relax_covers ad goal cur _ _ rest q hadj

/-- Postcondition of the main loop, relative to the closed list, frontier
positions and history at entry: `out` is the `(path, explored, history)`
triple the loop returns. -/
def LoopPost (m : VisualMap) (ad : Bool) (start goal : ℤ × ℤ)
    (closed : List (ℤ × ℤ)) (frpos : List (ℤ × ℤ))
    (history : List (List (ℤ × ℤ)))
    (out : Option (List (ℤ × ℤ)) × List (ℤ × ℤ) × List (List (ℤ × ℤ))) :
    Prop :=
  closed <+: out.2.1
  ∧ out.2.1.Nodup
  ∧ (∀ p ∈ out.2.1, m.is_free p.1 p.2 = true ∧ Reach m ad start p)
  ∧ history <+: out.2.2
  ∧ (out.1 = none →
      (∀ p ∈ frpos, p ∈ out.2.1)
      ∧ (∀ p ∈ out.2.1, ∀ q, adjStep m ad p q → q ∈ out.2.1)
      ∧ out.2.2.length + closed.length = history.length + out.2.1.length)
  ∧ (∀ pl, out.1 = some pl →
      pl.head? = some start ∧ pl.getLast? = some goal
      ∧ List.Chain' (adjStep m ad) pl ∧ goal ∈ out.2.1
      ∧ out.2.2.length + closed.length + 1 = history.length + out.2.1.length)

lemma planLoop_sound (m : VisualMap) (ad : Bool) (start goal : ℤ × ℤ) :
    ∀ (fuel : ℕ) (fr : List Node) (closed : List (ℤ × ℤ))
      (history : List (List (ℤ × ℤ))),
      LoopInv m ad start fr closed →
      (freeCells m).length ≤ fuel + closed.length →
      ∃ out, planLoop m ad goal fuel fr closed closed history = some out
        ∧ LoopPost m ad start goal closed (fr.map Node.pos) history out := by
  intro fuel
  induction fuel with
  | zero =>
    intro fr closed history inv hfuel
    cases hpop : popMin fr with
    | none =>
      have hfr : fr = [] := popMin_none_iff.mp hpop
      refine ⟨(none, closed, history), by rw [planLoop, hpop], ?_⟩
      subst hfr
      refine ⟨List.prefix_rfl, inv.nodupC,
        fun p hp => ⟨inv.freeC p hp, inv.reachC p hp⟩, List.prefix_rfl, ?_, ?_⟩
      · intro _
        refine ⟨fun p hp => absurd hp (List.not_mem_nil p), ?_, rfl⟩
        intro p hp q hadj
        rcases inv.closure p hp q hadj with h | h
        · exact h
        · cases h
      · intro pl hpl
        cases hpl
    | some pr =>
      obtain ⟨cur, rest⟩ := pr
      exfalso
      have hperm := popMin_perm hpop
      have hcurmem : cur ∈ fr := hperm.symm.subset (List.mem_cons_self _ _)
      have hcurnc : cur.pos ∉ closed := by
        apply inv.disj cur.pos
        exact List.mem_map.mpr ⟨cur, hcurmem, rfl⟩
      have hnodup : (cur.pos :: closed).Nodup :=
        List.nodup_cons.mpr ⟨hcurnc, inv.nodupC⟩
      have hsub : (cur.pos :: closed) ⊆ freeCells m := by
        intro a ha
        rcases List.mem_cons.mp ha with rfl | h
        · exact mem_freeCells (inv.good cur hcurmem).1
        · exact mem_freeCells (inv.freeC a h)
      have hlen := (List.subperm_of_subset hnodup hsub).length_le
      simp only [List.length_cons] at hlen
      omega
  | succ fuel ih =>
    intro fr closed history inv hfuel
    cases hpop : popMin fr with
    | none =>
      have hfr : fr = [] := popMin_none_iff.mp hpop
      refine ⟨(none, closed, history), by rw [planLoop, hpop], ?_⟩
      subst hfr
      refine ⟨List.prefix_rfl, inv.nodupC,
        fun p hp => ⟨inv.freeC p hp, inv.reachC p hp⟩, List.prefix_rfl, ?_, ?_⟩
      · intro _
        refine ⟨fun p hp => absurd hp (List.not_mem_nil p), ?_, rfl⟩
        intro p hp q hadj
        rcases inv.closure p hp q hadj with h | h
        · exact h
        · cases h
      · intro pl hpl
        cases hpl
    | some pr =>
      obtain ⟨cur, rest⟩ := pr
      have hperm := popMin_perm hpop
      have hpermpos : (fr.map Node.pos).Perm (cur.pos :: rest.map Node.pos) := by
        simpa using hperm.map Node.pos
      have hcurmem : cur ∈ fr := hperm.symm.subset (List.mem_cons_self _ _)
      obtain ⟨hcfree, hcchain⟩ := inv.good cur hcurmem
      have hcurnc : cur.pos ∉ closed :=
        inv.disj cur.pos (hpermpos.symm.subset (List.mem_cons_self _ _))
      by_cases hgoal : cur.pos = goal
      · have heq : planLoop m ad goal (fuel + 1) fr closed closed history
            = some (some ((backtrack cur).reverse), closed ++ [cur.pos],
                history) := by
          rw [planLoop, hpop]
          dsimp only
          rw [if_pos hgoal]
        refine ⟨_, heq, List.prefix_append _ _, ?_, ?_, List.prefix_rfl, ?_, ?_⟩
        · rw [List.nodup_append]
          refine ⟨inv.nodupC, List.nodup_singleton _, ?_⟩
          intro a ha hb
          rw [List.mem_singleton] at hb
          exact hcurnc (hb ▸ ha)
        · intro p hp
          rcases List.mem_append.mp hp with h | h
          · exact ⟨inv.freeC p h, inv.reachC p h⟩
          · rw [List.mem_singleton] at h
            subst h
            exact ⟨hcfree, chainOK_reach cur hcchain⟩
        · intro hnone
          cases hnone
        · intro pl hpl
          obtain rfl : (backtrack cur).reverse = pl := by
            cases hpl
            rfl
          refine ⟨?_, ?_, ?_, ?_, ?_⟩
          · rw [List.head?_reverse]
            exact backtrack_getLast cur hcchain
          · rw [List.getLast?_reverse, backtrack_head cur, hgoal]
          · rw [List.chain'_reverse]
            exact backtrack_chain cur hcchain
          · exact hgoal ▸ List.mem_append_right _ (List.mem_singleton.mpr rfl)
          · simp only [List.length_append, List.length_singleton]
            omega
      · have heq : planLoop m ad goal (fuel + 1) fr closed closed history
            = planLoop m ad goal fuel
                (step_neighbors m ad goal cur (closed ++ [cur.pos]) rest)
                (closed ++ [cur.pos]) (closed ++ [cur.pos])
                (history ++ [(step_neighbors m ad goal cur
                  (closed ++ [cur.pos]) rest).map Node.pos]) := by
          rw [planLoop, hpop]
          dsimp only
          rw [if_neg hgoal]
        have inv' := inv_step goal inv hpop
        have hfuel' : (freeCells m).length
            ≤ fuel + (closed ++ [cur.pos]).length := by
          simp only [List.length_append, List.length_singleton]
          omega
        obtain ⟨out, heq2, hpost⟩ := ih _ _ _ inv' hfuel'
        refine ⟨out, by rw [heq]; exact heq2, ?_⟩
        obtain ⟨hpre, hnodup, hfree, hhist, hnone, hsome⟩ := hpost
        refine ⟨(List.prefix_append _ _).trans hpre, hnodup, hfree,
          (List.prefix_append _ _).trans hhist, ?_, ?_⟩
        · intro hn
          obtain ⟨hfr, hclo, hlen⟩ := hnone hn
          refine ⟨?_, hclo, ?_⟩
          · intro p hp
            rcases List.mem_cons.mp (hpermpos.subset hp) with rfl | hp'
            · exact hpre.subset
                (List.mem_append_right _ (List.mem_singleton.mpr rfl))
            · exact hfr p (foldl_relax_pos_subset ad goal cur _ _ rest p hp')
          · simp only [List.length_append, List.length_singleton] at hlen ⊢
            omega
        · intro pl hpl
          obtain ⟨h1, h2, h3, h4, hlen⟩ := hsome pl hpl
          refine ⟨h1, h2, h3, h4, ?_⟩
          simp only [List.length_append, List.length_singleton] at hlen ⊢
          omega

/-! ### Top-level facts about `plan` -/

lemma plan_blocked {m : VisualMap} {ad : Bool} {s g : ℤ × ℤ}
    (h : m.is_free s.1 s.2 = false ∨ m.is_free g.1 g.2 = false) :
    plan m ad s g = some
      { path := none
        explored := []
        open_set_history := []
        start := s
        goal := g
        obstacles := obstaclesList m
        width := m.width
        height := m.height } := by
  rcases h with h | h <;> simp [plan, h]

lemma plan_main {m : VisualMap} {ad : Bool} {s g : ℤ × ℤ}
    (hs : m.is_free s.1 s.2 = true) (hg : m.is_free g.1 g.2 = true) :
    ∃ pth ex hist,
      plan m ad s g = some
        { path := pth
          explored := ex
          open_set_history := hist
          start := s
          goal := g
          obstacles := obstaclesList m
          width := m.width
          height := m.height }
      ∧ LoopPost m ad s g [] [s] [[s]] (pth, ex, hist) := by
  have hinv : LoopInv m ad s [mkNode s none] [] := by
    refine ⟨List.nodup_nil, ?_, ?_, ?_, ?_, ?_, ?_⟩
    · simp [mkNode, Node.pos]
    · intro p _
      exact List.not_mem_nil p
    · intro p hp
      cases hp
    · intro nd hnd
      rcases List.mem_singleton.mp hnd with rfl
      exact ⟨hs, rfl⟩
    · intro p hp
      cases hp
    · intro p hp
      cases hp
  have hfuel : (freeCells m).length ≤ m.width * m.height + ([] : List (ℤ × ℤ)).length := by
    simpa using freeCells_length_le m
  obtain ⟨out, heq, hpost⟩ :=
    planLoop_sound m ad s g (m.width * m.height) [mkNode s none] [] [[s]]
      hinv hfuel
  obtain ⟨pth, ex, hist⟩ := out
  refine ⟨pth, ex, hist, ?_, by simpa [mkNode, Node.pos] using hpost⟩
  have hcond : (!(m.is_free s.1 s.2) || !(m.is_free g.1 g.2)) = false := by
    rw [hs, hg]
    rfl
  simp only [plan, hcond, Bool.false_eq_true, if_false]
  rw [show (mkNode s none).pos = s from rfl, heq]

/-- If a list of positions contains `s`, is closed under the grid's neighbor
relation and misses `t`, then `t` is not reachable from `s` (used to supply
concrete disconnectedness facts). -/
lemma not_reach_of_closed {m : VisualMap} {ad : Bool} {s t : ℤ × ℤ}
    (S : List (ℤ × ℤ)) (hs : s ∈ S)
    (hclosed : ∀ p ∈ S, ∀ q ∈ m.get_neighbors p.1 p.2 ad, q ∈ S)
    (ht : t ∉ S) : ¬ Reach m ad s t := by
  intro hr
  have hmem : ∀ u, Reach m ad s u → u ∈ S := by
    intro u hu
    induction hu with
    | refl => exact hs
    | tail h1 hstep ih => exact hclosed _ ih _ hstep
  exact ht (hmem t hr)

/-! ### Claim theorems -/

/-- Claim C5: whenever start or goal is not traversable (out-of-bounds
included), `plan` returns normally with `path` absent, `explored` empty and
`open_set_history` empty.  (The wall-clock `runtime` field of the result dict
is outside the embedding.) -/
theorem plan_untraversable (m : VisualMap) (ad : Bool) (s g : ℤ × ℤ)
    (h : m.is_free s.1 s.2 = false ∨ m.is_free g.1 g.2 = false) :
    (plan m ad s g).isSome = true
    ∧ (plan m ad s g).elim True (fun r =>
        r.path = none ∧ r.explored = [] ∧ r.open_set_history = []) := by
  rw [plan_blocked h]
  exact ⟨rfl, rfl, rfl, rfl⟩

/-- Witness for C5 at a concrete input: an out-of-bounds start on a 1×1
grid. -/
theorem plan_untraversable_witness :
    ((VisualMap.mk 1 1 []).is_free (-1 : ℤ) 0 = false
      ∨ (VisualMap.mk 1 1 []).is_free 0 0 = false)
    ∧ ((plan (VisualMap.mk 1 1 []) false (-1, 0) (0, 0)).isSome = true
      ∧ (plan (VisualMap.mk 1 1 []) false (-1, 0) (0, 0)).elim True (fun r =>
          r.path = none ∧ r.explored = [] ∧ r.open_set_history = [])) :=
  ⟨Or.inl (by decide),
    plan_untraversable (VisualMap.mk 1 1 []) false (-1, 0) (0, 0)
      (Or.inl (by decide))⟩

/-- Claim C6: the `explored` sequence of any `plan` result has no duplicate
positions (a position is closed at most once). -/
theorem explored_nodup (m : VisualMap) (ad : Bool) (s g : ℤ × ℤ) :
    (plan m ad s g).elim True (fun r => r.explored.Nodup) := by
  cases hs : m.is_free s.1 s.2 with
  | false =>
    rw [plan_blocked (Or.inl hs)]
    exact List.nodup_nil
  | true =>
    cases hg : m.is_free g.1 g.2 with
    | false =>
      rw [plan_blocked (Or.inr hg)]
      exact List.nodup_nil
    | true =>
      obtain ⟨pth, ex, hist, heq, hpost⟩ := plan_main hs hg
      rw [heq]
      exact hpost.2.1

/-- Claim C7: whenever `plan` returns a present path, it starts at `start`,
ends at `goal`, and every consecutive pair is a neighbor pair per the grid's
`get_neighbors` with the same diagonal flag. -/
theorem path_valid (m : VisualMap) (ad : Bool) (s g : ℤ × ℤ) :
    (plan m ad s g).elim True (fun r =>
      r.path.elim True (fun pl =>
        pl.head? = some s ∧ pl.getLast? = some g
        ∧ List.Chain' (adjStep m ad) pl)) := by
  cases hs : m.is_free s.1 s.2 with
  | false =>
    rw [plan_blocked (Or.inl hs)]
    exact trivial
  | true =>
    cases hg : m.is_free g.1 g.2 with
    | false =>
      rw [plan_blocked (Or.inr hg)]
      exact trivial
    | true =>
      obtain ⟨pth, ex, hist, heq, hpost⟩ := plan_main hs hg
      rw [heq]
      cases pth with
      | none => exact trivial
      | some pl =>
        obtain ⟨h1, h2, h3, _, _⟩ := hpost.2.2.2.2.2 pl rfl
        exact ⟨h1, h2, h3⟩

/-- Claim C9: `plan` always terminates with a result (the fuel
`width * height` of the embedded loop never runs out), the number of loop
iterations (`explored.length`) is bounded by the number of traversable cells,
and every explored position is reachable from the start, which (with C6's
duplicate-freeness, restated here) bounds the iterations by the number of
reachable traversable cells. -/
theorem plan_terminates (m : VisualMap) (ad : Bool) (s g : ℤ × ℤ) :
    (plan m ad s g).isSome = true
    ∧ ((plan m ad s g).map (fun r => r.explored.length)).getD 0
        ≤ (freeCells m).length
    ∧ (plan m ad s g).elim True (fun r =>
        r.explored.Nodup ∧ ∀ p ∈ r.explored, Reach m ad s p) := by
  cases hs : m.is_free s.1 s.2 with
  | false =>
    rw [plan_blocked (Or.inl hs)]
    exact ⟨rfl, Nat.zero_le _,
      List.nodup_nil, fun p hp => absurd hp (List.not_mem_nil p)⟩
  | true =>
    cases hg : m.is_free g.1 g.2 with
    | false =>
      rw [plan_blocked (Or.inr hg)]
      exact ⟨rfl, Nat.zero_le _,
        List.nodup_nil, fun p hp => absurd hp (List.not_mem_nil p)⟩
    | true =>
      obtain ⟨pth, ex, hist, heq, hpost⟩ := plan_main hs hg
      rw [heq]
      obtain ⟨hpre, hnodup, hfree, _, _, _⟩ := hpost
      refine ⟨rfl, ?_, hnodup, fun p hp => (hfree p hp).2⟩
      show ex.length ≤ (freeCells m).length
      have hsub : ex ⊆ freeCells m := fun p hp => mem_freeCells (hfree p hp).1
      exact (List.subperm_of_subset hnodup hsub).length_le

/-- Counterexample to claim C1: on the 1×1 empty grid with
`start = goal = (0,0)` the loop runs to success, `explored` has length 1 but
`frontier_history` also has length 1 (not 2): on the success iteration the
code returns before appending the final frontier snapshot. -/
theorem frontier_history_length_counterexample :
    (plan (VisualMap.mk 1 1 []) false (0, 0) (0, 0)).map
        (fun r => (r.path.isSome, r.explored.length, r.open_set_history.length))
      = some (true, 1, 1)
    ∧ (plan (VisualMap.mk 1 1 []) false (0, 0) (0, 0)).map
        (fun r => decide (r.open_set_history.length = r.explored.length + 1))
      = some false := by
  constructor <;> decide

/-- Claim C1 as amended: when both endpoints are traversable (so the main
loop runs), `frontier_history.length = explored.length + 1` when the frontier
is exhausted without reaching the goal, but `= explored.length` when the goal
is reached, because the success return happens before the per-iteration
snapshot is appended. -/
theorem frontier_history_length (m : VisualMap) (ad : Bool) (s g : ℤ × ℤ)
    (hs : m.is_free s.1 s.2 = true) (hg : m.is_free g.1 g.2 = true) :
    (plan m ad s g).elim True (fun r =>
      (r.path = none → r.open_set_history.length = r.explored.length + 1)
      ∧ (r.path.isSome = true →
          r.open_set_history.length = r.explored.length)) := by
  obtain ⟨pth, ex, hist, heq, hpost⟩ := plan_main hs hg
  rw [heq]
  obtain ⟨_, _, _, _, hnone, hsome⟩ := hpost
  dsimp only [Option.elim]
  cases pth with
  | none =>
    obtain ⟨_, _, hlen⟩ := hnone rfl
    simp only [List.length_nil, List.length_singleton] at hlen
    refine ⟨fun _ => by omega, fun hcontra => ?_⟩
    simp at hcontra
  | some pl =>
    obtain ⟨_, _, _, _, hlen⟩ := hsome pl rfl
    simp only [List.length_nil, List.length_singleton] at hlen
    refine ⟨fun hcontra => Option.noConfusion hcontra, fun _ => by omega⟩

/-- Witness for the amended C1 on a concrete 2×1 grid. -/
theorem frontier_history_length_witness :
    (VisualMap.mk 2 1 []).is_free 0 0 = true
    ∧ (VisualMap.mk 2 1 []).is_free 1 0 = true
    ∧ (plan (VisualMap.mk 2 1 []) false (0, 0) (1, 0)).elim True (fun r =>
        (r.path = none → r.open_set_history.length = r.explored.length + 1)
        ∧ (r.path.isSome = true →
            r.open_set_history.length = r.explored.length)) :=
  ⟨by decide, by decide,
    frontier_history_length (VisualMap.mk 2 1 []) false (0, 0) (1, 0)
      (by decide) (by decide)⟩

/-- Counterexample to claim C3: the start node is built by `Node.__init__`
with all cost fields 0 and `plan` never assigns its `h` or `f`, so its `h` is
NOT `heuristic(start, goal)`: already for `start = (0,0)`, `goal = (2,2)` the
heuristic is `√8 ≠ 0`. -/
theorem start_node_h_counterexample :
    (mkNode (0, 0) none).h ≠ heuristic (0, 0) (2, 2)
    ∧ (mkNode (0, 0) none).h = ⟨0, 0⟩
    ∧ heuristic (0, 0) (2, 2) = ⟨0, 8⟩
    ∧ Sval.toReal (heuristic (0, 0) (2, 2)) = Real.sqrt 8
    ∧ Sval.toReal (mkNode (0, 0) none).h = 0 := by
  have h8 : heuristic (0, 0) (2, 2) = ⟨0, 8⟩ := by decide
  refine ⟨by decide, rfl, h8, ?_, ?_⟩
  · rw [h8]
    show (((0 : ℚ) : ℝ) + Real.sqrt ((8 : ℕ) : ℝ)) = Real.sqrt 8
    push_cast
    ring
  · show (((0 : ℚ) : ℝ) + Real.sqrt ((0 : ℕ) : ℝ)) = 0
    push_cast
    simp [Real.sqrt_zero]

/-- Claim C3 as amended: for traversable start and goal the start node is
created with `g = 0`, `h = 0`, `f = 0` (the `Node.__init__` defaults; `plan`
never sets the start node's `h` or `f`) and `parent = none`, and it is
inserted into the frontier and the auxiliary mapping: the initial frontier
snapshot recorded in the result is exactly `{start}`. -/
theorem start_node_fields (m : VisualMap) (ad : Bool) (s g : ℤ × ℤ)
    (hs : m.is_free s.1 s.2 = true) (hg : m.is_free g.1 g.2 = true) :
    (mkNode s none).g = 0 ∧ (mkNode s none).h = ⟨0, 0⟩
    ∧ (mkNode s none).f = ⟨0, 0⟩ ∧ (mkNode s none).parent = none
    ∧ (plan m ad s g).elim True (fun r =>
        r.open_set_history.head? = some [s]) := by
  refine ⟨rfl, rfl, rfl, rfl, ?_⟩
  obtain ⟨pth, ex, hist, heq, hpost⟩ := plan_main hs hg
  rw [heq]
  obtain ⟨_, _, _, hhist, _, _⟩ := hpost
  obtain ⟨t, ht⟩ := hhist
  have ht2 : [[s]] ++ t = hist := ht
  show hist.head? = some [s]
  rw [← ht2]
  rfl

/-- Witness for the amended C3 on a concrete 1×1 grid. -/
theorem start_node_fields_witness :
    (VisualMap.mk 1 1 []).is_free 0 0 = true
    ∧ ((mkNode ((0 : ℤ), (0 : ℤ)) none).g = 0
      ∧ (mkNode ((0 : ℤ), (0 : ℤ)) none).h = ⟨0, 0⟩
      ∧ (mkNode ((0 : ℤ), (0 : ℤ)) none).f = ⟨0, 0⟩
      ∧ (mkNode ((0 : ℤ), (0 : ℤ)) none).parent = none
      ∧ (plan (VisualMap.mk 1 1 []) false (0, 0) (0, 0)).elim True (fun r =>
          r.open_set_history.head? = some [(0, 0)])) :=
  ⟨by decide,
    start_node_fields (VisualMap.mk 1 1 []) false (0, 0) (0, 0)
      (by decide) (by decide)⟩

/-- Counterexample to claim C2: the diagonal move cost charged by the code is
the literal `1.414 = 707/500`, which is not `√2`. -/
theorem move_cost_not_sqrt_two :
    move_cost true (0, 0) (1, 1) = 707 / 500
    ∧ ((move_cost true (0, 0) (1, 1) : ℚ) : ℝ) ≠ Real.sqrt 2 := by
  have hq : move_cost true (0, 0) (1, 1) = (707 / 500 : ℚ) := by decide
  refine ⟨hq, ?_⟩
  rw [hq]
  push_cast
  intro h
  have h2 : ((707 : ℝ) / 500) ^ 2 = Real.sqrt 2 ^ 2 := by rw [h]
  rw [Real.sq_sqrt (by norm_num : (0 : ℝ) ≤ 2)] at h2
  norm_num at h2

/-- Claim C2 as amended: in every iteration of the plan loop the move cost
charged for a step is `1.0` for an orthogonal step and the literal
`1.414 = 707/500` — a rational approximation of `√2` from below, within
`1/1000` — for a diagonal step, where a step is diagonal iff both coordinate
deltas have absolute value 1 (and diagonal movement is enabled). -/
theorem move_cost_values (ad : Bool) (cpos npos : ℤ × ℤ) :
    (move_cost ad cpos npos = 707 / 500
      ↔ (ad = true ∧ (npos.1 - cpos.1).natAbs = 1
          ∧ (npos.2 - cpos.2).natAbs = 1))
    ∧ (move_cost ad cpos npos = 1
      ↔ ¬(ad = true ∧ (npos.1 - cpos.1).natAbs = 1
          ∧ (npos.2 - cpos.2).natAbs = 1))
    ∧ ((707 / 500 : ℝ) < Real.sqrt 2 ∧ Real.sqrt 2 < (708 / 500 : ℝ)) := by
  refine ⟨?_, ?_, ?_, ?_⟩
  · unfold move_cost
    split
    case isTrue hcond => exact ⟨fun _ => hcond, fun _ => rfl⟩
    case isFalse hcond =>
      exact ⟨fun habs => absurd habs (by norm_num), fun habs => absurd habs hcond⟩
  · unfold move_cost
    split
    case isTrue hcond =>
      exact ⟨fun habs => absurd habs (by norm_num), fun habs => absurd hcond habs⟩
    case isFalse hcond => exact ⟨fun _ => hcond, fun _ => rfl⟩
  · rw [Real.lt_sqrt (by norm_num : (0 : ℝ) ≤ 707 / 500)]
    norm_num
  · rw [Real.sqrt_lt' (by norm_num : (0 : ℝ) < 708 / 500)]
    norm_num

/-- Claim C8: when start and goal are traversable but goal is not reachable
from start through the grid's neighbor relation, `plan` returns with `path`
absent and `explored` equal (as a set) to the full traversable region
connected to the start: a position is explored iff it is reachable from
`start`. -/
theorem no_path_disconnected (m : VisualMap) (ad : Bool) (s g : ℤ × ℤ)
    (hs : m.is_free s.1 s.2 = true) (hg : m.is_free g.1 g.2 = true)
    (hnr : ¬ Reach m ad s g) :
    (plan m ad s g).elim True (fun r =>
      r.path = none ∧ ∀ p, (p ∈ r.explored ↔ Reach m ad s p)) := by
  obtain ⟨pth, ex, hist, heq, hpost⟩ := plan_main hs hg
  rw [heq]
  obtain ⟨_, _, hfree, _, hnone, hsome⟩ := hpost
  dsimp only [Option.elim]
  cases pth with
  | some pl =>
    exfalso
    obtain ⟨_, _, _, hgoalmem, _⟩ := hsome pl rfl
    exact hnr (hfree g hgoalmem).2
  | none =>
    obtain ⟨hfr, hclo, _⟩ := hnone rfl
    refine ⟨rfl, ?_⟩
    intro p
    constructor
    · intro hp
      exact (hfree p hp).2
    · intro hr
      have hmem : ∀ u, Reach m ad s u → u ∈ ex := by
        intro u hu
        induction hu with
        | refl => exact hfr s (List.mem_singleton.mpr rfl)
        | tail h1 hstep ih => exact hclo _ ih _ hstep
      exact hmem p hr
  
/-- Witness for C8: a 3×1 grid whose middle cell is an obstacle separates
`(0,0)` from `(2,0)` without diagonal moves. -/
theorem no_path_disconnected_witness :
    (VisualMap.mk 3 1 [(1, 0)]).is_free 0 0 = true
    ∧ (VisualMap.mk 3 1 [(1, 0)]).is_free 2 0 = true
    ∧ (plan (VisualMap.mk 3 1 [(1, 0)]) false (0, 0) (2, 0)).elim True (fun r =>
        r.path = none
        ∧ ∀ p, (p ∈ r.explored ↔ Reach (VisualMap.mk 3 1 [(1, 0)]) false (0, 0) p)) :=
  ⟨by decide, by decide,
    no_path_disconnected (VisualMap.mk 3 1 [(1, 0)]) false (0, 0) (2, 0)
      (by decide) (by decide)
      (not_reach_of_closed [(0, 0)] (by decide) (by decide) (by decide))⟩

/-- Claim C10: when the decrease-key update fires on a frontier node whose
`h` was computed by the heuristic at its own position (as holds for every
node the neighbor loop ever puts into the frontier) and whose `f` satisfies
the `f = g + h` invariant, the recomputed `h` is unchanged, and the node's
`f` value drops by exactly the drop in `g` — in particular `f` strictly
decreases, so a frontier node's `f` is non-increasing over its lifetime. -/
theorem decrease_key_f_decreases (cur nd : Node) (goal : ℤ × ℤ) (ng : ℚ)
    (hh : nd.h = heuristic nd.pos goal)
    (hf : nd.f = Sval.addQ nd.g nd.h)
    (hlt : ng < nd.g) :
    (updateNode cur goal ng nd).h = nd.h
    ∧ (updateNode cur goal ng nd).pos = nd.pos
    ∧ ((updateNode cur goal ng nd).f).toReal < nd.f.toReal
    ∧ nd.f.toReal - ((updateNode cur goal ng nd).f).toReal
        = (nd.g : ℝ) - (ng : ℝ) := by
  have h1 : (updateNode cur goal ng nd).h = heuristic nd.pos goal := rfl
  have h2 : (updateNode cur goal ng nd).f
      = Sval.addQ ng (heuristic nd.pos goal) := rfl
  have hcast : (ng : ℝ) < ((nd.g : ℚ) : ℝ) := by exact_mod_cast hlt
  refine ⟨by rw [h1, hh], rfl, ?_, ?_⟩
  · rw [h2, hf, hh]
    unfold Sval.addQ Sval.toReal
    dsimp only
    push_cast
    linarith
  · rw [h2, hf, hh]
    unfold Sval.addQ Sval.toReal
    dsimp only
    push_cast
    ring

/-- Witness for C10 at concrete nodes: a frontier node at `(1,1)` with
`g = 3` (as created by the neighbor loop) updated to the tentative cost
`ng = 1`. -/
theorem decrease_key_f_decreases_witness :
    ((newNode (mkNode (0, 0) none) (2, 2) 3 (1, 1)).h
        = heuristic (newNode (mkNode (0, 0) none) (2, 2) 3 (1, 1)).pos (2, 2))
    ∧ ((newNode (mkNode (0, 0) none) (2, 2) 3 (1, 1)).f
        = Sval.addQ (newNode (mkNode (0, 0) none) (2, 2) 3 (1, 1)).g
            (newNode (mkNode (0, 0) none) (2, 2) 3 (1, 1)).h)
    ∧ ((1 : ℚ) < (newNode (mkNode (0, 0) none) (2, 2) 3 (1, 1)).g)
    ∧ ((updateNode (mkNode (0, 0) none) (2, 2) 1
          (newNode (mkNode (0, 0) none) (2, 2) 3 (1, 1))).h
        = (newNode (mkNode (0, 0) none) (2, 2) 3 (1, 1)).h
      ∧ (updateNode (mkNode (0, 0) none) (2, 2) 1
          (newNode (mkNode (0, 0) none) (2, 2) 3 (1, 1))).pos
        = (newNode (mkNode (0, 0) none) (2, 2) 3 (1, 1)).pos
      ∧ ((updateNode (mkNode (0, 0) none) (2, 2) 1
          (newNode (mkNode (0, 0) none) (2, 2) 3 (1, 1))).f).toReal
        < ((newNode (mkNode (0, 0) none) (2, 2) 3 (1, 1)).f).toReal
      ∧ ((newNode (mkNode (0, 0) none) (2, 2) 3 (1, 1)).f).toReal
          - ((updateNode (mkNode (0, 0) none) (2, 2) 1
              (newNode (mkNode (0, 0) none) (2, 2) 3 (1, 1))).f).toReal
        = (((newNode (mkNode (0, 0) none) (2, 2) 3 (1, 1)).g : ℚ) : ℝ)
            - ((1 : ℚ) : ℝ)) :=
  ⟨rfl, rfl, by decide,
    decrease_key_f_decreases (mkNode (0, 0) none)
      (newNode (mkNode (0, 0) none) (2, 2) 3 (1, 1)) (2, 2) 1
      rfl rfl (by decide)⟩

/-! ### Correctness of the surd comparison

`Sval.ble`/`Sval.blt` decide exactly the ordering of the real values
`q + √n`: this justifies that `popMin` removes a node of minimal real
`f`-value, as `heapq.heappop` does for the float `f` values. -/

set_option maxHeartbeats 1000000 in
theorem Sval.ble_iff (a b : Sval) : Sval.ble a b = true ↔ a.toReal ≤ b.toReal := by
  have hx : (0:ℝ) ≤ Real.sqrt ((a.n : ℕ) : ℝ) := Real.sqrt_nonneg _
  have hy : (0:ℝ) ≤ Real.sqrt ((b.n : ℕ) : ℝ) := Real.sqrt_nonneg _
  have hx2 : Real.sqrt ((a.n : ℕ) : ℝ) ^ 2 = ((a.n : ℕ) : ℝ) :=
    Real.sq_sqrt (by positivity)
  have hy2 : Real.sqrt ((b.n : ℕ) : ℝ) ^ 2 = ((b.n : ℕ) : ℝ) :=
    Real.sq_sqrt (by positivity)
  set x : ℝ := Real.sqrt ((a.n : ℕ) : ℝ) with hxdef
  set y : ℝ := Real.sqrt ((b.n : ℕ) : ℝ) with hydef
  unfold Sval.ble Sval.toReal
  dsimp only
  by_cases hd : (0:ℚ) ≤ b.q - a.q
  · rw [if_pos hd, Bool.or_eq_true, decide_eq_true_eq, decide_eq_true_eq]
    have hdR : (0:ℝ) ≤ (b.q : ℝ) - (a.q : ℝ) := by exact_mod_cast hd
    constructor
    · rintro (hL | hL)
      · have hLR : ((a.n : ℕ) : ℝ) - ((b.n : ℕ) : ℝ)
            - ((b.q : ℝ) - (a.q : ℝ)) * ((b.q : ℝ) - (a.q : ℝ)) ≤ 0 := by
          exact_mod_cast hL
        have hle : ((a.n : ℕ) : ℝ) ≤ (((b.q : ℝ) - (a.q : ℝ)) + y) ^ 2 := by
          nlinarith [hy2, hdR, hy]
        have hsq := Real.sqrt_le_sqrt hle
        rw [Real.sqrt_sq (by linarith : (0:ℝ) ≤ ((b.q : ℝ) - (a.q : ℝ)) + y)]
          at hsq
        rw [← hxdef] at hsq
        linarith
      · have hLR : (((a.n : ℕ) : ℝ) - ((b.n : ℕ) : ℝ)
              - ((b.q : ℝ) - (a.q : ℝ)) * ((b.q : ℝ) - (a.q : ℝ)))
            * (((a.n : ℕ) : ℝ) - ((b.n : ℕ) : ℝ)
              - ((b.q : ℝ) - (a.q : ℝ)) * ((b.q : ℝ) - (a.q : ℝ)))
            ≤ 4 * (((b.q : ℝ) - (a.q : ℝ)) * ((b.q : ℝ) - (a.q : ℝ)))
              * ((b.n : ℕ) : ℝ) := by
          exact_mod_cast hL
        have h2dy : ((a.n : ℕ) : ℝ) - ((b.n : ℕ) : ℝ)
            - ((b.q : ℝ) - (a.q : ℝ)) * ((b.q : ℝ) - (a.q : ℝ))
            ≤ 2 * ((b.q : ℝ) - (a.q : ℝ)) * y := by
          have hch := le_abs_self (((a.n : ℕ) : ℝ) - ((b.n : ℕ) : ℝ)
            - ((b.q : ℝ) - (a.q : ℝ)) * ((b.q : ℝ) - (a.q : ℝ)))
          have habs : |(((a.n : ℕ) : ℝ) - ((b.n : ℕ) : ℝ)
              - ((b.q : ℝ) - (a.q : ℝ)) * ((b.q : ℝ) - (a.q : ℝ)))|
              ≤ 2 * ((b.q : ℝ) - (a.q : ℝ)) * y := by
            rw [← Real.sqrt_sq_eq_abs]
            rw [show 2 * ((b.q : ℝ) - (a.q : ℝ)) * y
                = Real.sqrt ((2 * ((b.q : ℝ) - (a.q : ℝ)) * y) ^ 2) from
              (Real.sqrt_sq (by positivity)).symm]
            apply Real.sqrt_le_sqrt
            nlinarith [hLR, hy2]
          linarith
        have hle : ((a.n : ℕ) : ℝ) ≤ (((b.q : ℝ) - (a.q : ℝ)) + y) ^ 2 := by
          nlinarith [h2dy, hy2]
        have hsq := Real.sqrt_le_sqrt hle
        rw [Real.sqrt_sq (by linarith : (0:ℝ) ≤ ((b.q : ℝ) - (a.q : ℝ)) + y)]
          at hsq
        rw [← hxdef] at hsq
        linarith
    · intro h
      have hxy : x ≤ ((b.q : ℝ) - (a.q : ℝ)) + y := by linarith
      have hsq : ((a.n : ℕ) : ℝ) ≤ (((b.q : ℝ) - (a.q : ℝ)) + y) ^ 2 := by
        calc ((a.n : ℕ) : ℝ) = x ^ 2 := hx2.symm
          _ ≤ (((b.q : ℝ) - (a.q : ℝ)) + y) ^ 2 := pow_le_pow_left₀ hx hxy 2
      have h2dy : ((a.n : ℕ) : ℝ) - ((b.n : ℕ) : ℝ)
          - ((b.q : ℝ) - (a.q : ℝ)) * ((b.q : ℝ) - (a.q : ℝ))
          ≤ 2 * ((b.q : ℝ) - (a.q : ℝ)) * y := by
        nlinarith [hsq, hy2]
      by_cases hL0 : ((a.n : ℚ) - (b.n : ℚ) - (b.q - a.q) * (b.q - a.q) ≤ 0)
      · exact Or.inl hL0
      · right
        have hLpos : (0:ℝ) < ((a.n : ℕ) : ℝ) - ((b.n : ℕ) : ℝ)
            - ((b.q : ℝ) - (a.q : ℝ)) * ((b.q : ℝ) - (a.q : ℝ)) := by
          have := not_le.mp hL0
          exact_mod_cast this
        have hpow := pow_le_pow_left₀ (le_of_lt hLpos) h2dy 2
        have hfin : (((a.n : ℕ) : ℝ) - ((b.n : ℕ) : ℝ)
              - ((b.q : ℝ) - (a.q : ℝ)) * ((b.q : ℝ) - (a.q : ℝ)))
            * (((a.n : ℕ) : ℝ) - ((b.n : ℕ) : ℝ)
              - ((b.q : ℝ) - (a.q : ℝ)) * ((b.q : ℝ) - (a.q : ℝ)))
            ≤ 4 * (((b.q : ℝ) - (a.q : ℝ)) * ((b.q : ℝ) - (a.q : ℝ)))
              * ((b.n : ℕ) : ℝ) := by
          nlinarith [hpow, hy2]
        exact_mod_cast hfin
  · rw [if_neg hd, Bool.and_eq_true, decide_eq_true_eq, decide_eq_true_eq]
    have hdR : (b.q : ℝ) - (a.q : ℝ) < 0 := by
      have := not_le.mp hd
      exact_mod_cast this
    constructor
    · rintro ⟨hM0, hM⟩
      have hM0R : (0:ℝ) ≤ ((b.n : ℕ) : ℝ) - ((a.n : ℕ) : ℝ)
          - ((b.q : ℝ) - (a.q : ℝ)) * ((b.q : ℝ) - (a.q : ℝ)) := by
        exact_mod_cast hM0
      have hMR : 4 * (((b.q : ℝ) - (a.q : ℝ)) * ((b.q : ℝ) - (a.q : ℝ)))
            * ((a.n : ℕ) : ℝ)
          ≤ (((b.n : ℕ) : ℝ) - ((a.n : ℕ) : ℝ)
              - ((b.q : ℝ) - (a.q : ℝ)) * ((b.q : ℝ) - (a.q : ℝ)))
            * (((b.n : ℕ) : ℝ) - ((a.n : ℕ) : ℝ)
              - ((b.q : ℝ) - (a.q : ℝ)) * ((b.q : ℝ) - (a.q : ℝ))) := by
        exact_mod_cast hM
      have hneg : (0:ℝ) ≤ -2 * ((b.q : ℝ) - (a.q : ℝ)) * x := by
        nlinarith [hx, hdR]
      have h1 : -2 * ((b.q : ℝ) - (a.q : ℝ)) * x
          ≤ ((b.n : ℕ) : ℝ) - ((a.n : ℕ) : ℝ)
            - ((b.q : ℝ) - (a.q : ℝ)) * ((b.q : ℝ) - (a.q : ℝ)) := by
        rw [show -2 * ((b.q : ℝ) - (a.q : ℝ)) * x
            = Real.sqrt ((-2 * ((b.q : ℝ) - (a.q : ℝ)) * x) ^ 2) from
          (Real.sqrt_sq hneg).symm]
        rw [show ((b.n : ℕ) : ℝ) - ((a.n : ℕ) : ℝ)
              - ((b.q : ℝ) - (a.q : ℝ)) * ((b.q : ℝ) - (a.q : ℝ))
            = Real.sqrt ((((b.n : ℕ) : ℝ) - ((a.n : ℕ) : ℝ)
              - ((b.q : ℝ) - (a.q : ℝ)) * ((b.q : ℝ) - (a.q : ℝ))) ^ 2) from
          (Real.sqrt_sq hM0R).symm]
        apply Real.sqrt_le_sqrt
        nlinarith [hMR, hx2]
      have hbn : (x - ((b.q : ℝ) - (a.q : ℝ))) ^ 2 ≤ ((b.n : ℕ) : ℝ) := by
        nlinarith [h1, hx2]
      have hsq := Real.sqrt_le_sqrt hbn
      rw [Real.sqrt_sq (by nlinarith [hx, hdR] :
        (0:ℝ) ≤ x - ((b.q : ℝ) - (a.q : ℝ)))] at hsq
      rw [← hydef] at hsq
      linarith
    · intro h
      have hxd : (0:ℝ) ≤ x - ((b.q : ℝ) - (a.q : ℝ)) := by linarith
      have hsq : (x - ((b.q : ℝ) - (a.q : ℝ))) ^ 2 ≤ y ^ 2 :=
        pow_le_pow_left₀ hxd (by linarith) 2
      have h1 : -2 * ((b.q : ℝ) - (a.q : ℝ)) * x
          ≤ ((b.n : ℕ) : ℝ) - ((a.n : ℕ) : ℝ)
            - ((b.q : ℝ) - (a.q : ℝ)) * ((b.q : ℝ) - (a.q : ℝ)) := by
        nlinarith [hsq, hx2, hy2]
      have hneg : (0:ℝ) ≤ -2 * ((b.q : ℝ) - (a.q : ℝ)) * x := by
        nlinarith [hx, hdR]
      constructor
      · exact_mod_cast le_trans hneg h1
      · have hpow := pow_le_pow_left₀ hneg h1 2
        have hfin : 4 * (((b.q : ℝ) - (a.q : ℝ)) * ((b.q : ℝ) - (a.q : ℝ)))
              * ((a.n : ℕ) : ℝ)
            ≤ (((b.n : ℕ) : ℝ) - ((a.n : ℕ) : ℝ)
                - ((b.q : ℝ) - (a.q : ℝ)) * ((b.q : ℝ) - (a.q : ℝ)))
              * (((b.n : ℕ) : ℝ) - ((a.n : ℕ) : ℝ)
                - ((b.q : ℝ) - (a.q : ℝ)) * ((b.q : ℝ) - (a.q : ℝ))) := by
          nlinarith [hpow, hx2]
        exact_mod_cast hfin

theorem Sval.blt_iff (a b : Sval) : Sval.blt a b = true ↔ a.toReal < b.toReal := by
  unfold Sval.blt
  rw [Bool.not_eq_true', ← Bool.not_eq_true, Sval.ble_iff, not_le]

theorem Sval.blt_false_iff (a b : Sval) :
    Sval.blt a b = false ↔ b.toReal ≤ a.toReal := by
  rw [← Bool.not_eq_true, Sval.blt_iff, not_lt]

/-- The popped node has minimal real `f` value among the frontier, matching
the `heapq.heappop` contract on the `Node.__lt__` ordering. -/
theorem popMin_min : ∀ {l : List Node} {c : Node} {r : List Node},
    popMin l = some (c, r) → ∀ nd ∈ l, c.f.toReal ≤ nd.f.toReal
  | [], c, r, h => by cases h
  | n :: ns, c, r, h => by
    simp only [popMin] at h
    cases hm : popMin ns with
    | none =>
      rw [hm] at h
      dsimp only at h
      obtain ⟨rfl, rfl⟩ := Prod.mk.injEq .. ▸ Option.some.inj h
      have hns : ns = [] := popMin_none_iff.mp hm
      subst hns
      intro nd hnd
      rcases List.mem_singleton.mp hnd with rfl
      exact le_refl _
    | some pr =>
      obtain ⟨mn, rest⟩ := pr
      rw [hm] at h
      dsimp only at h
      by_cases hb : Sval.blt mn.f n.f
      · rw [if_pos hb] at h
        obtain ⟨rfl, rfl⟩ := Prod.mk.injEq .. ▸ Option.some.inj h
        intro nd hnd
        rcases List.mem_cons.mp hnd with rfl | hnd'
        · exact le_of_lt ((Sval.blt_iff _ _).mp hb)
        · exact popMin_min hm nd hnd'
      · rw [if_neg hb] at h
        obtain ⟨rfl, rfl⟩ := Prod.mk.injEq .. ▸ Option.some.inj h
        have hb' : Sval.blt mn.f n.f = false := by
          simpa using hb
        have hmn : n.f.toReal ≤ mn.f.toReal :=
          (Sval.blt_false_iff _ _).mp hb'
        intro nd hnd
        rcases List.mem_cons.mp hnd with rfl | hnd'
        · exact le_refl _
        · exact le_trans hmn (popMin_min hm nd hnd')

/-- The `Sval` produced by `heuristic` denotes exactly the Euclidean
distance `sqrt(dx² + dy²)` of the source. -/
theorem heuristic_toReal (a b : ℤ × ℤ) :
    (heuristic a b).toReal
      = Real.sqrt (((a.1 - b.1 : ℤ) : ℝ) ^ 2 + ((a.2 - b.2 : ℤ) : ℝ) ^ 2) := by
  unfold heuristic Sval.toReal
  dsimp only
  have hnn : (0:ℤ) ≤ (a.1 - b.1) * (a.1 - b.1) + (a.2 - b.2) * (a.2 - b.2) :=
    add_nonneg (mul_self_nonneg _) (mul_self_nonneg _)
  have hcast : ((((a.1 - b.1) * (a.1 - b.1)
        + (a.2 - b.2) * (a.2 - b.2)).toNat : ℕ) : ℝ)
      = (((a.1 - b.1) * (a.1 - b.1) + (a.2 - b.2) * (a.2 - b.2) : ℤ) : ℝ) := by
    exact_mod_cast congrArg (Int.cast : ℤ → ℝ) (Int.toNat_of_nonneg hnn)
  rw [Rat.cast_zero, zero_add, hcast]
  congr 1
  push_cast
  ring
